import Mathlib

/-!
Verification development for the microservice-topology simulator.

The definitions below are shallow embeddings of the Rust sources:

* `src/generic-service/src/main.rs` — the generic service runtime: the
  2-D call-plan executor inside `get_data` (stages serial, fan-out within
  a stage, per-leg retry until success), the latency sleep and the
  simulated error.
* `src/runner/src/validator/rules.rs` — the topology validator
  (`validate_service_dependencies`, `validate_single_distribution`,
  `detect_circular_dependencies` / `detect_cycles_dfs`).
* `src/runner/src/orchestrator/mod.rs` and `src/orchestrator/src/main.rs`
  — `assign_ports`.

Randomness (distribution sampling) and downstream RPC outcomes are
modelled as explicit oracles: a leg outcome oracle gives, per
(stage, leg, retry round), the result of `call_service`; the latency and
error samples of one invocation are plain parameters.  The `while` retry
loop of `get_data` is modelled with explicit fuel; all temporal claims are
conditioned on the loop terminating (`= some _`).
-/

namespace SimSpec

/-- One wire call record (`CallData` in the proto, minus the wall-clock
timestamp, which no claim in scope mentions). -/
structure CallData where
  method_name : String
  was_an_error : Bool
  deriving Repr, DecidableEq

/-- A `ServiceResponse`: the callee's method name and accumulated trace. -/
structure ServiceResponse where
  method_name : String
  calls : List CallData
  deriving Repr, DecidableEq

/-- One parsed call target (`Call` in `generic-service/src/main.rs`):
`"Service.Method"` split at the first dot. -/
structure Call where
  service_name : String
  method_name : String
  deriving Repr, DecidableEq

/-- Outcome of one `call_service` attempt.  In the source, `call_service`
returns `Err(method_name)` on any RPC error (the callee's name echoed
back) and `Ok(response)` on success. -/
inductive LegResult where
  | err
  | ok (resp : ServiceResponse)
  deriving Repr, DecidableEq

/-- A leg-outcome oracle: stage index → leg index → retry round →
outcome of the `call_service` future issued for that attempt. -/
def Oracle : Type := Nat → Nat → Nat → LegResult

/-- Did the attempt fail? -/
def LegResult.isErr : LegResult → Bool
  | .err => true
  | .ok _ => false

/-- A trace record as accumulated in `call_list`, annotated with ghost
provenance (originating stage, leg index, retry round, and whether the
record was copied out of the callee's sub-trace (`fromCallee = true`) or
is the caller's own record of the attempt (`fromCallee = false`)).  The
wire trace is `map data` of this list. -/
structure TraceRec where
  stage : Nat
  leg : Nat
  round : Nat
  fromCallee : Bool
  data : CallData
  deriving Repr, DecidableEq

/-- One retry round of one stage: the loop body of
`while succeeded.contains(&false)` in `get_data`
(`src/generic-service/src/main.rs:240-276`).  Futures are issued for the
not-yet-succeeded legs in index order, `join_all` preserves that order,
and the response vector is then consumed in the same index order (the `j`
counter); so per leg, in index order: a skip if already succeeded,
otherwise consult the oracle; on failure push one error record (method
name echoed back), on success push the callee's accumulated trace
followed by the caller's own record.  Returns the updated `succeeded`
vector and the records appended this round.  `i` is the index of the
first leg of `row`. -/
def processRound (oracle : Oracle) (s round : Nat) :
    List Call → List Bool → Nat → List Bool × List TraceRec
  | [], _, _ => ([], [])
  | _ :: _, [], _ => ([], [])
  | c :: cs, d :: ds, i =>
    let rest := processRound oracle s round cs ds (i + 1)
    if d then (true :: rest.1, rest.2)
    else
      match oracle s i round with
      | .err =>
          (false :: rest.1,
            ⟨s, i, round, false, ⟨c.method_name, true⟩⟩ :: rest.2)
      | .ok resp =>
          (true :: rest.1,
            resp.calls.map (fun cd => ⟨s, i, round, true, cd⟩) ++
              ⟨s, i, round, false, ⟨resp.method_name, false⟩⟩ :: rest.2)

/-- The per-stage retry loop (`while succeeded.contains(&false)`),
with explicit fuel bounding the number of retry rounds; `none` models the
loop still running when the fuel runs out.  `round` is the number of
rounds already executed for this stage. -/
def runStageAux (oracle : Oracle) (s : Nat) (row : List Call) :
    Nat → Nat → List Bool → Option (List TraceRec)
  | 0, _, succ => if succ.contains false then none else some []
  | fuel + 1, round, succ =>
    if succ.contains false then
      let pr := processRound oracle s round row succ 0
      (runStageAux oracle s row fuel (round + 1) pr.1).map (pr.2 ++ ·)
    else some []

/-- One stage of the call plan: `succeeded` starts all-false
(`vec![false; call_row.len()]`). -/
def runStage (oracle : Oracle) (s : Nat) (row : List Call) (fuel : Nat) :
    Option (List TraceRec) :=
  runStageAux oracle s row fuel 0 (List.replicate row.length false)

/-- The stages of a call plan, executed strictly in order
(`for call_row in calls`); `s` is the index of the first stage. -/
def runPlanAux (oracle : Oracle) (fuel : Nat) :
    Nat → List (List Call) → Option (List TraceRec)
  | _, [] => some []
  | s, row :: rest =>
    match runStage oracle s row fuel with
    | none => none
    | some recs => (runPlanAux oracle fuel (s + 1) rest).map (recs ++ ·)

/-- The whole call plan of a method, accumulating `call_list`. -/
def runPlan (oracle : Oracle) (plan : List (List Call)) (fuel : Nat) :
    Option (List TraceRec) :=
  runPlanAux oracle fuel 0 plan

/-! ## Reference (ghost) forms used to state the executor claims

These re-describe the trace the loop produces, round by round and leg by
leg, so the claims can be stated as derived properties of the loop. -/

/-- Is leg `i` of stage `s` still pending at the start of round `r`
(all earlier rounds for it were attempted and failed)?  A leg is
attempted in exactly the rounds in which it is pending. -/
def pendingB (oracle : Oracle) (s i r : Nat) : Bool :=
  (List.range r).all fun r' => (oracle s i r').isErr

/-- The records one attempt of leg `i` (call target `c`) in round `r` of
stage `s` appends: one error record on failure; the callee's flattened
trace followed by the caller's own success record on success. -/
def legBlock (oracle : Oracle) (s r i : Nat) (c : Call) : List TraceRec :=
  match oracle s i r with
  | .err => [⟨s, i, r, false, ⟨c.method_name, true⟩⟩]
  | .ok resp =>
      resp.calls.map (fun cd => ⟨s, i, r, true, cd⟩) ++
        [⟨s, i, r, false, ⟨resp.method_name, false⟩⟩]

/-- The records round `r` of stage `s` appends: the blocks of the legs
still pending at that round, in fan-out index order (`i` is the index of
the first leg of `row`). -/
def rowBlocks (oracle : Oracle) (s r : Nat) : Nat → List Call → List TraceRec
  | _, [] => []
  | i, c :: cs =>
    (if pendingB oracle s i r then legBlock oracle s r i c else []) ++
      rowBlocks oracle s r (i + 1) cs

/-- The whole trace of one stage, as `R` rounds of `rowBlocks`. -/
def stageRef (oracle : Oracle) (s : Nat) (row : List Call) (R : Nat) :
    List TraceRec :=
  (List.range R).flatMap fun r => rowBlocks oracle s r 0 row

/-- The caller's own records for leg `i` of stage `s`, projected to
(retry round, `was_an_error`), in trace order. -/
def ownFor (s i : Nat) (recs : List TraceRec) : List (Nat × Bool) :=
  recs.filterMap fun r =>
    if r.stage = s ∧ r.leg = i ∧ r.fromCallee = false then
      some (r.round, r.data.was_an_error)
    else none

/-! ## The endpoint (`get_data`) -/

/-- The per-method configuration as far as `get_data`'s control flow is
concerned: the optional call plan (`MethodConfig.calls`).  The latency
and error-rate distributions are sampled once per invocation; those
samples enter the model as explicit parameters of `get_data`. -/
structure MethodCfg where
  calls : Option (List (List Call))
  deriving Repr, DecidableEq

/-- Observable effects of one `get_data` invocation, in program order. -/
inductive Effect where
  | called (stage leg round : Nat)
  | slept (ms : Nat)
  | errSampled
  deriving Repr, DecidableEq

/-- Result of one `get_data` invocation.  `panicked` models a Rust panic
(`.expect`) inside the handler — the request aborts without a response
status being built; `fuelExhausted` models the retry loop never
terminating; `internalErr` models `Err(Status::internal(msg))`. -/
inductive GetDataResult where
  | panicked (msg : String)
  | fuelExhausted
  | internalErr (msg : String)
  | ok (resp : ServiceResponse)
  deriving Repr, DecidableEq

/-- Run the optional call plan (`match &method_cnf.calls`): `None` means
a leaf method, no records. -/
def runPlanOpt (oracle : Oracle) : Option (List (List Call)) → Nat →
    Option (List TraceRec)
  | none, _ => some []
  | some plan, fuel => runPlan oracle plan fuel

/-- Rust `f64::round`: round half away from zero
(`latency.round()` in `get_data`).  Real latency samples are modelled
as rationals. -/
def rustRound (x : ℚ) : ℤ :=
  if 0 ≤ x then ⌊x + 1 / 2⌋ else -⌊-x + 1 / 2⌋

/-- Rust `as u64` on an `f64`: saturating — negative values clamp to 0,
values above `u64::MAX` clamp to `u64::MAX`. -/
def castU64 (z : ℤ) : Nat := min z.toNat (2 ^ 64 - 1)

/-- The whole milliseconds `get_data` sleeps for a real latency sample
`x`: `latency.round() as u64`. -/
def sleptMillis (x : ℚ) : Nat := castU64 (rustRound x)

/-- `get_data` (`src/generic-service/src/main.rs:223-299`) for one
incoming request, with the invocation's downstream outcomes (`oracle`),
latency sample (`lat`) and error sample (`errS`) made explicit.  Returns
the effects performed, in order, and the result.  Method lookup failure
hits `.expect("Method not found in config")`, a panic, before any
downstream call, sleep or error sampling.  The call effects are the
attempts of the plan, one per own-record of the trace, in trace order. -/
def get_data (cfg : List (String × MethodCfg)) (oracle : Oracle) (lat : ℚ)
    (errS : Bool) (fuel : Nat) (mname : String) :
    List Effect × GetDataResult :=
  match cfg.lookup mname with
  | none => ([], .panicked "Method not found in config")
  | some mc =>
    match runPlanOpt oracle mc.calls fuel with
    | none => ([], .fuelExhausted)
    | some recs =>
      let callFx := (recs.filter fun r => !r.fromCallee).map
        fun r => Effect.called r.stage r.leg r.round
      let fx := callFx ++ [Effect.slept (sleptMillis lat), Effect.errSampled]
      if errS then (fx, .internalErr "Internal Error")
      else (fx, .ok ⟨mname, recs.map (·.data)⟩)

/-! ## The runner's validator (`src/runner/src/validator/rules.rs`) -/

/-- A `DistributionSpec` as the runner parses it: a type tag and a
map of real-valued parameters (reals modelled as rationals). -/
structure Distribution where
  distribution_type : String
  parameters : List (String × ℚ)
  deriving Repr, DecidableEq

/-- `parameters.contains_key(k)`. -/
def paramsContain (ps : List (String × ℚ)) (k : String) : Bool :=
  (ps.map Prod.fst).contains k

/-- `parameters[k]` — in the source every indexing is guarded by a
`contains_key` check, so the default is never observed. -/
def paramGet (ps : List (String × ℚ)) (k : String) : ℚ :=
  (ps.lookup k).getD 0

/-- One error per `bail!` site of `validate_single_distribution`. -/
inductive DistErr where
  | missingMean | missingStddev | negativeMean | nonPositiveStddev
  | missingMin | missingMax | minGreaterThanMax | negativeMin
  | missingValue | negativeValue
  | missingRate | nonPositiveRate
  | missingP
  | unknownType (t : String)
  deriving Repr, DecidableEq

/-- `validate_single_distribution` (`rules.rs:69-160`), branch for
branch.  Note the `"bernoulli"` arm: the source only checks that the
parameter `p` is present — there is no range check on its value. -/
def validate_single_distribution (d : Distribution) : Except DistErr Unit :=
  match d.distribution_type with
  | "normal" =>
    if ¬paramsContain d.parameters "mean" then .error .missingMean
    else if ¬paramsContain d.parameters "stddev" then .error .missingStddev
    else if paramGet d.parameters "mean" < 0 then .error .negativeMean
    else if paramGet d.parameters "stddev" ≤ 0 then .error .nonPositiveStddev
    else .ok ()
  | "uniform" =>
    if ¬paramsContain d.parameters "min" then .error .missingMin
    else if ¬paramsContain d.parameters "max" then .error .missingMax
    else if paramGet d.parameters "max" < paramGet d.parameters "min" then
      .error .minGreaterThanMax
    else if paramGet d.parameters "min" < 0 then .error .negativeMin
    else .ok ()
  | "constant" =>
    if ¬paramsContain d.parameters "value" then .error .missingValue
    else if paramGet d.parameters "value" < 0 then .error .negativeValue
    else .ok ()
  | "exponential" =>
    if ¬paramsContain d.parameters "rate" then .error .missingRate
    else if paramGet d.parameters "rate" ≤ 0 then .error .nonPositiveRate
    else .ok ()
  | "bernoulli" =>
    if ¬paramsContain d.parameters "p" then .error .missingP
    else .ok ()
  | t => .error (.unknownType t)

/-- A method as the dependency validator sees it: its call strings
(stages of `"Service.Method"` targets). -/
structure VMethod where
  calls : List (List String)
  deriving Repr, DecidableEq

/-- A service: its methods, in map-iteration order. -/
structure VService where
  methods : List (String × VMethod)
  deriving Repr, DecidableEq

/-- A `SimulatorConfig` restricted to what `validate_service_dependencies`
and `detect_circular_dependencies` read: the service map, as an
association list in map-iteration order. -/
structure VConfig where
  services : List (String × VService)
  deriving Repr, DecidableEq

/-- The service names (`config.services.keys()`). -/
def VConfig.keys (cfg : VConfig) : List String :=
  cfg.services.map Prod.fst

/-- Splitting a character list at `'.'`, keeping empty segments; always
yields at least one segment. -/
def splitCharsDot : List Char → List (List Char)
  | [] => [[]]
  | c :: cs =>
    match splitCharsDot cs, decide (c = '.') with
    | rest, true => [] :: rest
    | [], false => [[c]]
    | seg :: segs, false => (c :: seg) :: segs

/-- `call.split('.')` — Rust's `split` yields `[""]` for the empty
string and keeps empty segments; so does this. -/
def splitDot (call : String) : List String :=
  (splitCharsDot call.data).map fun cs => ⟨cs⟩

/-- `parts[0]` — the called service of a call string; `split` always
yields at least one part. -/
def calledOf (call : String) : String := (splitDot call).headI

/-- One error per `bail!` site of `validate_service_dependencies` /
`detect_cycles_dfs`, plus the panic of indexing a missing service in
`detect_cycles_dfs` (unreachable once call references were checked). -/
inductive VErr where
  | invalidCallFormat (service method call : String)
  | unknownService (called service method : String)
  | unknownMethod (calledMethod calledService : String)
  | circularDependency (service called : String)
  | panicMissingService (s : String)
  deriving Repr, DecidableEq

/-- Short-circuiting `for` loop over a list with a fallible body. -/
def forEachE {α : Type} (f : α → Except VErr Unit) : List α → Except VErr Unit
  | [] => .ok ()
  | a :: rest =>
    match f a with
    | .error e => .error e
    | .ok _ => forEachE f rest

/-- The per-call checks of `validate_service_dependencies`
(`rules.rs:22-43`): exactly one dot, called service exists, called
method exists on it. -/
def checkCall (cfg : VConfig) (sname mname call : String) : Except VErr Unit :=
  let parts := splitDot call
  if parts.length ≠ 2 then .error (.invalidCallFormat sname mname call)
  else
    let calledS := parts.headI
    let calledM := (parts.getD 1 "")
    if ¬(cfg.keys.contains calledS) then
      .error (.unknownService calledS sname mname)
    else
      match cfg.services.lookup calledS with
      | none => .error (.unknownService calledS sname mname)
      | some svc =>
        if (svc.methods.map Prod.fst).contains calledM then .ok ()
        else .error (.unknownMethod calledM calledS)

/-- The reference-integrity pass of `validate_service_dependencies`:
every call string of every method of every service is checked, in
order. -/
def checkAllCalls (cfg : VConfig) : Except VErr Unit :=
  forEachE
    (fun sp =>
      forEachE
        (fun mp =>
          forEachE (fun row => forEachE (checkCall cfg sp.1 mp.1) row)
            mp.2.calls)
        sp.2.methods)
    cfg.services

/-- The flattened call targets of a service, in the order
`detect_cycles_dfs` scans them (`parts[0]` of every call string of every
stage of every method). -/
def adjOfSvc (svc : VService) : List String :=
  svc.methods.flatMap fun mp => mp.2.calls.flatMap fun row => row.map calledOf

/-- The called services of `u` in `cfg` (empty when `u` is not a
service). -/
def adjOf (cfg : VConfig) (u : String) : List String :=
  match cfg.services.lookup u with
  | none => []
  | some svc => adjOfSvc svc

/-- The service-level call-graph edge relation: the union over all
methods and stages of (service → called service). -/
def stepRel (cfg : VConfig) (u v : String) : Prop := v ∈ adjOf cfg u

/-- The call graph has a directed cycle: some service reaches itself by
one or more edges. -/
def HasCycle (cfg : VConfig) : Prop :=
  ∃ u, Relation.TransGen (stepRel cfg) u u

mutual

/-- `detect_cycles_dfs` (`rules.rs:181-217`): mark `name` visited and
on the current stack, then scan its call targets.  The `&mut` sets of
the source become a threaded `visited` list and a `stack` parameter
(the source removes `name` from the stack before returning, so the
caller's stack is unchanged — here the caller simply keeps its own
`stack`).  The fuel bounds the recursion depth; `none` means it ran
out (never happens with fuel `> `number of services, proved below). -/
def dfsNode (cfg : VConfig) : Nat → String → List String → List String →
    Option (Except VErr (List String))
  | 0, _, _, _ => none
  | fuel + 1, name, visited, stack =>
    match cfg.services.lookup name with
    | none => some (.error (.panicMissingService name))
    | some svc =>
        dfsTargets cfg fuel name (adjOfSvc svc) (name :: visited)
          (name :: stack)

/-- The target scan of `detect_cycles_dfs`: a target on the current
stack is a cycle (`bail!`); an already-visited target is skipped; an
unvisited one is recursed into, its grown `visited` threading on. -/
def dfsTargets (cfg : VConfig) : Nat → String → List String → List String →
    List String → Option (Except VErr (List String))
  | _, _, [], visited, _ => some (.ok visited)
  | fuel, self, t :: ts, visited, stack =>
    if t ∈ stack then some (.error (.circularDependency self t))
    else if t ∈ visited then dfsTargets cfg fuel self ts visited stack
    else
      match dfsNode cfg fuel t visited stack with
      | none => none
      | some (.error e) => some (.error e)
      | some (.ok visited') => dfsTargets cfg fuel self ts visited' stack

end

/-- The root loop of `detect_circular_dependencies` (`rules.rs:163-178`):
DFS from every not-yet-visited service, in key order.  (The source's
`if dfs(..)? { return Ok(()) }` early return is dead code:
`detect_cycles_dfs` only ever produces `Ok(false)` or an error.) -/
def detectCircularAux (cfg : VConfig) (fuel : Nat) :
    List String → List String → Option (Except VErr Unit)
  | [], _ => some (.ok ())
  | k :: ks, visited =>
    if k ∈ visited then detectCircularAux cfg fuel ks visited
    else
      match dfsNode cfg fuel k visited [] with
      | none => none
      | some (.error e) => some (.error e)
      | some (.ok visited') => detectCircularAux cfg fuel ks visited'

/-- `detect_circular_dependencies`. -/
def detect_circular_dependencies (cfg : VConfig) (fuel : Nat) :
    Option (Except VErr Unit) :=
  detectCircularAux cfg fuel cfg.keys []

/-- `validate_service_dependencies` (`rules.rs:15-52`): the reference
checks, then cycle detection. -/
def validate_service_dependencies (cfg : VConfig) (fuel : Nat) :
    Option (Except VErr Unit) :=
  match checkAllCalls cfg with
  | .error e => some (.error e)
  | .ok _ => detect_circular_dependencies cfg fuel

/-! ## Port assignment (`src/runner/src/orchestrator/mod.rs:115-132`,
identically `src/orchestrator/src/main.rs:169-186`) -/

/-- `(50051..60000).collect::<Vec<u16>>()` — ascending. -/
def availablePorts : List Nat := List.range' 50051 9949

/-- The assignment loop: for each service name in map-iteration order,
`available_ports.pop()` — take from the *end* of the vector — or fail
when the pool is empty. -/
def assignPortsAux : List String → List Nat → Option (List (String × Nat))
  | [], _ => some []
  | n :: ns, avail =>
    match avail.getLast? with
    | none => none
    | some p => (assignPortsAux ns avail.dropLast).map (fun rest => (n, p) :: rest)

/-- `assign_ports`, as a function of the `HashMap` key iteration order
(which the `HashMap` does not sort and does not keep stable across
processes). -/
def assign_ports (names : List String) : Option (List (String × Nat)) :=
  assignPortsAux names availablePorts

/-! ## The spec's rounding (for comparison with `rustRound`) -/

/-- Modelled from the spec: "real samples are converted to whole
milliseconds by rounding half-to-even before sleeping" — round to the
nearest integer, ties to the even neighbour. -/
def specRoundHalfToEven (x : ℚ) : ℤ :=
  if x - ⌊x⌋ < 1 / 2 then ⌊x⌋
  else if 1 / 2 < x - ⌊x⌋ then ⌊x⌋ + 1
  else if ⌊x⌋ % 2 = 0 then ⌊x⌋ else ⌊x⌋ + 1

/-- Modelled from the spec: the milliseconds slept for sample `x`
according to the spec's words — half-to-even rounding, negative samples
clamped to zero. -/
def specSleptMillis (x : ℚ) : Nat := (specRoundHalfToEven x).toNat

/-! ## C7 — bernoulli parameter validation -/

/-- C7: the validator is claimed to enforce `p ∈ [0,1]` for every
bernoulli distribution, failing with a bad-distribution error outside
that range.  The code does not: the `"bernoulli"` arm of
`validate_single_distribution` only checks that `p` is present, so the
out-of-range parameter `p = 2` — which `Bernoulli::new(p).unwrap()`
then rejects at service start-up — passes validation. -/
theorem c7_bernoulli_out_of_range_accepted :
    validate_single_distribution ⟨"bernoulli", [("p", 2)]⟩ = Except.ok () ∧
      ¬((0 : ℚ) ≤ 2 ∧ (2 : ℚ) ≤ 1) := by
  refine ⟨rfl, ?_⟩
  rintro ⟨-, h⟩
  norm_num at h

/-! ## C8 — latency rounding -/

/-- C8 as stated is false: the milliseconds slept are not the sample
rounded half-to-even.  At the sample `1/2` the code
(`latency.round() as u64`, round half away from zero) sleeps 1 ms while
half-to-even rounding gives 0 ms. -/
theorem c8_not_half_to_even :
    sleptMillis (1 / 2) = 1 ∧ specSleptMillis (1 / 2) = 0 ∧
      ¬∀ x : ℚ, sleptMillis x = specSleptMillis x := by
  have h1 : sleptMillis (1 / 2) = 1 := by
    have : rustRound (1 / 2) = 1 := by
      rw [rustRound, if_pos (by norm_num)]
      norm_num
    rw [sleptMillis, this]
    rfl
  have h2 : specSleptMillis (1 / 2) = 0 := by
    rw [specSleptMillis, specRoundHalfToEven]
    norm_num
  refine ⟨h1, h2, fun h => ?_⟩
  have := h (1 / 2)
  rw [h1, h2] at this
  exact one_ne_zero this

/-- C8 (amended): the value slept is the sample rounded half *away from
zero* to whole milliseconds (`f64::round`), and every sample `≤ 0` —
in particular every negative normal sample — is clamped to zero by the
saturating `as u64` cast.  For non-negative samples (up to the `u64`
saturation bound) the slept value is within half a millisecond of the
sample, and an exact half rounds up (away from zero). -/
theorem c8_round_half_away_and_clamp (x : ℚ) :
    (x ≤ 0 → sleptMillis x = 0) ∧
    (0 ≤ x → x ≤ 2 ^ 63 →
      |x - (sleptMillis x : ℚ)| ≤ 1 / 2 ∧
      (x - ⌊x⌋ = 1 / 2 → (sleptMillis x : ℤ) = ⌊x⌋ + 1)) := by
  constructor
  · intro hx
    rcases eq_or_lt_of_le hx with h0 | h0
    · subst h0
      rw [sleptMillis, rustRound, if_pos le_rfl]
      norm_num
      rfl
    · have hz : rustRound x ≤ 0 := by
        rw [rustRound, if_neg (by exact not_le.mpr h0)]
        have : (0 : ℤ) ≤ ⌊-x + 1 / 2⌋ := by
          rw [Int.le_floor]
          push_cast
          linarith
        omega
      rw [sleptMillis, castU64]
      omega
  · intro hx hub
    have hr : rustRound x = ⌊x + 1 / 2⌋ := by rw [rustRound, if_pos hx]
    have hnn : (0 : ℤ) ≤ ⌊x + 1 / 2⌋ := by
      rw [Int.le_floor]
      push_cast
      linarith
    have hle : (⌊x + 1 / 2⌋ : ℚ) ≤ x + 1 / 2 := Int.floor_le _
    have hlt : x + 1 / 2 < ⌊x + 1 / 2⌋ + 1 := Int.lt_floor_add_one _
    have hub' : ⌊x + 1 / 2⌋ ≤ 2 ^ 63 := by
      have : (⌊x + 1 / 2⌋ : ℚ) < 2 ^ 63 + 1 := by linarith
      exact_mod_cast Int.lt_add_one_iff.mp (by exact_mod_cast this)
    have hcast : (sleptMillis x : ℤ) = ⌊x + 1 / 2⌋ := by
      rw [sleptMillis, hr, castU64]
      omega
    constructor
    · have hq : (sleptMillis x : ℚ) = (⌊x + 1 / 2⌋ : ℚ) := by
        exact_mod_cast congrArg (fun z : ℤ => (z : ℚ)) hcast
      rw [hq, abs_le]
      constructor <;> linarith
    · intro htie
      have : x + 1 / 2 = ((⌊x⌋ + 1 : ℤ) : ℚ) := by
        push_cast
        linarith
      rw [hcast, this, Int.floor_intCast]

/-- C8 amended, at concrete inputs: a negative sample sleeps 0 ms, and
at the sample `5/2` the slept value `3` is within half a millisecond
and the exact half rounded up. -/
theorem c8_round_witness :
    sleptMillis (-3 / 2) = 0 ∧
      (|5 / 2 - (sleptMillis (5 / 2) : ℚ)| ≤ 1 / 2 ∧
        (sleptMillis (5 / 2) : ℤ) = ⌊(5 / 2 : ℚ)⌋ + 1) :=
  ⟨(c8_round_half_away_and_clamp (-3 / 2)).1 (by norm_num),
    ((c8_round_half_away_and_clamp (5 / 2)).2 (by norm_num) (by norm_num)).1,
    ((c8_round_half_away_and_clamp (5 / 2)).2 (by norm_num) (by norm_num)).2
      (by norm_num)⟩

/-! ## C5 — unknown method -/

/-- C5 is false as stated: a request for a method absent from the
instance's method map does not produce an `UnknownMethod` error
returned to the caller — `get_data` hits
`.expect("Method not found in config")`, a panic that aborts the
request without building any response status. -/
theorem c5_unknown_method_panics_concrete :
    get_data [] (fun _ _ _ => .err) 0 false 0 "m" =
      ([], .panicked "Method not found in config") := rfl

/-- C5 (amended): for every request whose method is not in the
instance's method map, `get_data` panics with
"Method not found in config", and no downstream call, latency sleep or
error sampling happens (the effect list is empty). -/
theorem c5_unknown_method_panics (cfg : List (String × MethodCfg))
    (oracle : Oracle) (lat : ℚ) (errS : Bool) (fuel : Nat) (m : String)
    (h : cfg.lookup m = none) :
    get_data cfg oracle lat errS fuel m =
      ([], .panicked "Method not found in config") := by
  unfold get_data
  rw [h]

/-- C5 amended at a concrete input. -/
theorem c5_unknown_method_witness :
    (([] : List (String × MethodCfg)).lookup "m" = none) ∧
      get_data [] (fun _ _ _ => .err) 1 true 5 "m" =
        ([], .panicked "Method not found in config") :=
  ⟨rfl, c5_unknown_method_panics [] (fun _ _ _ => .err) 1 true 5 "m" rfl⟩

/-! ## C4 — effect order of `get_data` -/

/-- C4: for every request whose method exists and whose call plan
terminates, `get_data` performs its effects in the fixed order —
all downstream calls first, then the sleep for the sampled latency,
then the error sample after the delay — and responds
`internalErr "Internal Error"` when the error sample is true, and
`ok { method_name, calls := trace }` otherwise. -/
theorem c4_effect_order (cfg : List (String × MethodCfg)) (oracle : Oracle)
    (lat : ℚ) (errS : Bool) (fuel : Nat) (m : String) (mc : MethodCfg)
    (recs : List TraceRec) (hm : cfg.lookup m = some mc)
    (hp : runPlanOpt oracle mc.calls fuel = some recs) :
    ∃ callFx : List Effect,
      (∀ e ∈ callFx, ∃ s i r, e = Effect.called s i r) ∧
      get_data cfg oracle lat errS fuel m =
        (callFx ++ [Effect.slept (sleptMillis lat), Effect.errSampled],
          if errS then GetDataResult.internalErr "Internal Error"
          else GetDataResult.ok ⟨m, recs.map (·.data)⟩) := by
  refine ⟨(recs.filter fun r => !r.fromCallee).map
    (fun r => Effect.called r.stage r.leg r.round), ?_, ?_⟩
  · intro e he
    rw [List.mem_map] at he
    obtain ⟨r, -, rfl⟩ := he
    exact ⟨r.stage, r.leg, r.round, rfl⟩
  · simp only [get_data, hm, hp]
    cases errS <;> rfl

/-- C4 at a concrete input: a leaf method (`calls = none`), error
sample false. -/
theorem c4_effect_order_witness :
    ([("m", MethodCfg.mk none)].lookup "m" = some (MethodCfg.mk none)) ∧
      (runPlanOpt (fun _ _ _ => .err) none 0 = some []) ∧
      ∃ callFx : List Effect,
        (∀ e ∈ callFx, ∃ s i r, e = Effect.called s i r) ∧
        get_data [("m", MethodCfg.mk none)] (fun _ _ _ => .err) 1 false 0 "m" =
          (callFx ++ [Effect.slept (sleptMillis 1), Effect.errSampled],
            if false then GetDataResult.internalErr "Internal Error"
            else GetDataResult.ok ⟨"m", ([] : List TraceRec).map (·.data)⟩) :=
  ⟨rfl, rfl,
    c4_effect_order [("m", MethodCfg.mk none)] (fun _ _ _ => .err) 1 false 0
      "m" (MethodCfg.mk none) [] rfl rfl⟩

/-! ## C9 — port assignment -/

/-- A successful `assign_ports` run pairs the names, in iteration
order, with ports popped from the end of the pool: the result is
`names.zip` of the reversed pool. -/
theorem assignPortsAux_zip (names : List String) :
    ∀ (avail : List Nat) (asg : List (String × Nat)),
      assignPortsAux names avail = some asg →
      names.length ≤ avail.length ∧
        asg = names.zip (avail.reverse.take names.length) := by
  induction names with
  | nil =>
    intro avail asg h
    rw [assignPortsAux] at h
    injection h with h
    subst h
    simp
  | cons n ns ih =>
    intro avail asg h
    rw [assignPortsAux] at h
    cases hl : avail.getLast? with
    | none => rw [hl] at h; cases h
    | some p =>
      rw [hl] at h
      cases hrec : assignPortsAux ns avail.dropLast with
      | none => rw [hrec] at h; cases h
      | some rest =>
        rw [hrec] at h
        injection h with h
        obtain ⟨hlen, hzip⟩ := ih avail.dropLast rest hrec
        have hne : avail ≠ [] := by
          intro hh
          subst hh
          simp at hl
        have hrev : avail.reverse = p :: avail.dropLast.reverse := by
          have h1 : avail.reverse.head? = some p := by
            rw [← List.getLast?_eq_head?_reverse]
            exact hl
          cases hrv : avail.reverse with
          | nil => rw [hrv] at h1; cases h1
          | cons a t =>
            rw [hrv] at h1
            injection h1 with h1
            subst h1
            have ht := List.tail_reverse avail
            rw [hrv] at ht
            simp only [List.tail_cons] at ht
            rw [ht]
        constructor
        · have hdl : avail.dropLast.length = avail.length - 1 := by simp
          have hpos : 0 < avail.length := List.length_pos.mpr hne
          simp only [List.length_cons]
          omega
        · subst h
          rw [hzip, hrev]
          rfl

/-- With enough ports in the pool, `assignPortsAux` succeeds, with the
zip-of-reversed-pool result. -/
theorem assignPortsAux_total (names : List String) :
    ∀ avail : List Nat, names.length ≤ avail.length →
      assignPortsAux names avail =
        some (names.zip (avail.reverse.take names.length)) := by
  induction names with
  | nil => intro avail _; rfl
  | cons n ns ih =>
    intro avail hlen
    have hne : avail.reverse ≠ [] := by
      intro hh
      have : avail = [] := by simpa using congrArg List.reverse hh
      subst this
      simp at hlen
    cases hrv : avail.reverse with
    | nil => exact absurd hrv hne
    | cons p t =>
      have hl : avail.getLast? = some p := by
        rw [List.getLast?_eq_head?_reverse, hrv]
        rfl
      have ht : avail.dropLast.reverse = t := by
        have := List.tail_reverse avail
        rw [hrv] at this
        simpa using this.symm
      have hdlen : ns.length ≤ avail.dropLast.length := by
        have : avail.length = avail.reverse.length := (List.length_reverse _).symm
        rw [hrv] at this
        simp only [List.length_cons] at this
        simp only [List.length_dropLast]
        simp only [List.length_cons] at hlen
        omega
      rw [assignPortsAux, hl, ih avail.dropLast hdlen, ht]
      rfl

/-- C9 (amended): when port assignment succeeds, the assigned host
ports are exactly the top of the pool in descending order (59999,
59998, …) paired with the names in *iteration* order, hence pairwise
distinct and all within `[50051, 60000)`.  The claimed alphabetical
sorting does not exist in the code: the result is a function of the
`HashMap` iteration order, which the counterexample below shows is
observable in the assignment. -/
theorem c9_ports_distinct_in_range (names : List String)
    (asg : List (String × Nat)) (h : assign_ports names = some asg) :
    asg = names.zip (availablePorts.reverse.take names.length) ∧
    (asg.map Prod.snd).Nodup ∧
    ∀ p ∈ asg.map Prod.snd, 50051 ≤ p ∧ p < 60000 := by
  obtain ⟨hlen, hzip⟩ := assignPortsAux_zip names availablePorts asg h
  have hsnd : asg.map Prod.snd = availablePorts.reverse.take names.length := by
    rw [hzip]
    exact List.map_snd_zip _ _ (by simp [List.length_take])
  refine ⟨hzip, ?_, ?_⟩
  · rw [hsnd]
    exact ((availablePorts.reverse.take_sublist names.length).nodup
      (List.nodup_reverse.mpr (List.nodup_range' _ _)))
  · intro p hp
    rw [hsnd] at hp
    have : p ∈ availablePorts := by
      have := List.mem_of_mem_take hp
      exact List.mem_reverse.mp this
    rw [availablePorts] at this
    have := List.mem_range'_1.mp this
    omega

/-- C9 amended, at a concrete input. -/
theorem c9_ports_witness :
    assign_ports ["A", "B"] = some [("A", 59999), ("B", 59998)] ∧
      (([("A", 59999), ("B", 59998)].map Prod.snd).Nodup ∧
        ∀ p ∈ [("A", 59999), ("B", 59998)].map Prod.snd,
          50051 ≤ p ∧ p < 60000) := by
  have htake : availablePorts.reverse.take 2 = [59999, 59998] := by
    have hsplit : availablePorts = List.range' 50051 9947 ++ List.range' 59998 2 := by
      rw [availablePorts, List.range'_append_1]
    rw [hsplit, List.reverse_append]
    rfl
  have h : assign_ports ["A", "B"] = some [("A", 59999), ("B", 59998)] := by
    rw [assign_ports, assignPortsAux_total ["A", "B"] availablePorts
      (by simp [availablePorts])]
    rw [show (["A", "B"] : List String).length = 2 from rfl, htake]
    rfl
  exact ⟨h, (c9_ports_distinct_in_range ["A", "B"] [("A", 59999), ("B", 59998)] h).2⟩

/-- C9 is false as stated: the assignment is *not* determined by the
set of service names — the code iterates the `HashMap`'s keys without
sorting them, and two iteration orders of the same two-name set yield
different port maps ("A" gets 59999 in one order and 59998 in the
other). -/
theorem c9_not_order_independent :
    (["A", "B"].Perm ["B", "A"]) ∧
      (assign_ports ["A", "B"]).map (fun a => a.lookup "A") ≠
        (assign_ports ["B", "A"]).map (fun a => a.lookup "A") := by
  have htake : availablePorts.reverse.take 2 = [59999, 59998] := by
    have hsplit : availablePorts = List.range' 50051 9947 ++ List.range' 59998 2 := by
      rw [availablePorts, List.range'_append_1]
    rw [hsplit, List.reverse_append]
    rfl
  have h1 : assign_ports ["A", "B"] = some [("A", 59999), ("B", 59998)] := by
    rw [assign_ports, assignPortsAux_total ["A", "B"] availablePorts
      (by simp [availablePorts])]
    rw [show (["A", "B"] : List String).length = 2 from rfl, htake]
    rfl
  have h2 : assign_ports ["B", "A"] = some [("B", 59999), ("A", 59998)] := by
    rw [assign_ports, assignPortsAux_total ["B", "A"] availablePorts
      (by simp [availablePorts])]
    rw [show (["B", "A"] : List String).length = 2 from rfl, htake]
    rfl
  refine ⟨List.Perm.swap "B" "A" [], ?_⟩
  rw [h1, h2]
  simp [List.lookup]

/-! ## The executor's trace, characterized round by round -/

/-- The `succeeded` vector of a stage as the oracle determines it: leg
`i + j` is marked succeeded at round `r` iff it is no longer pending. -/
def pendList (oracle : Oracle) (s r : Nat) : Nat → List Call → List Bool
  | _, [] => []
  | i, _ :: cs => (!pendingB oracle s i r) :: pendList oracle s r (i + 1) cs

theorem pendingB_zero (oracle : Oracle) (s i : Nat) :
    pendingB oracle s i 0 = true := rfl

theorem pendingB_succ (oracle : Oracle) (s i r : Nat) :
    pendingB oracle s i (r + 1) = (pendingB oracle s i r && (oracle s i r).isErr) := by
  simp [pendingB, List.range_succ]

theorem pendingB_iff (oracle : Oracle) (s i r : Nat) :
    pendingB oracle s i r = true ↔ ∀ r' < r, (oracle s i r').isErr = true := by
  simp [pendingB, List.mem_range]

theorem pendList_zero (oracle : Oracle) (s : Nat) :
    ∀ (row : List Call) (i : Nat),
      pendList oracle s 0 i row = List.replicate row.length false := by
  intro row
  induction row with
  | nil => intro i; rfl
  | cons c cs ih =>
    intro i
    simp [pendList, pendingB_zero, List.replicate_succ, ih (i + 1)]

/-- One round of `processRound`, started on the oracle-consistent
`succeeded` vector, produces the round's blocks in fan-out index order
and the updated vector. -/
theorem processRound_eq (oracle : Oracle) (s r : Nat) :
    ∀ (row : List Call) (i : Nat),
      processRound oracle s r row (pendList oracle s r i row) i =
        (pendList oracle s (r + 1) i row, rowBlocks oracle s r i row) := by
  intro row
  induction row with
  | nil => intro i; rfl
  | cons c cs ih =>
    intro i
    simp only [pendList, processRound, rowBlocks, ih (i + 1)]
    cases hp : pendingB oracle s i r with
    | false =>
      simp only [Bool.not_false, if_true, pendingB_succ, hp, Bool.false_and,
        Bool.not_false, if_neg]
      simp
    | true =>
      simp only [Bool.not_true, if_false, pendingB_succ, hp, Bool.true_and]
      cases ho : oracle s i r with
      | err =>
        simp [legBlock, ho, LegResult.isErr]
      | ok resp =>
        simp [legBlock, ho, LegResult.isErr]

theorem pendList_nofalse (oracle : Oracle) (s r : Nat) :
    ∀ (row : List Call) (i : Nat),
      (pendList oracle s r i row).contains false = false →
      ∀ j < row.length, pendingB oracle s (i + j) r = false := by
  intro row
  induction row with
  | nil => intro i _ j hj; exact absurd hj (Nat.not_lt_zero j)
  | cons c cs ih =>
    intro i h j hj
    rw [pendList, List.contains_cons] at h
    have h1 : pendingB oracle s i r = false := by
      cases hp : pendingB oracle s i r
      · rfl
      · rw [hp] at h; simp at h
    have h2 : (pendList oracle s r (i + 1) cs).contains false = false := by
      cases hc : (pendList oracle s r (i + 1) cs).contains false
      · rfl
      · rw [hc] at h; simp at h
    cases j with
    | zero => simpa using h1
    | succ jj =>
      have := ih (i + 1) h2 jj (by simpa [Nat.succ_lt_succ_iff] using hj)
      have harith : i + 1 + jj = i + (jj + 1) := by omega
      rwa [harith] at this

/-- The per-stage retry loop, run on an oracle-consistent `succeeded`
vector from round `r`, produces exactly the round blocks of rounds
`r, r+1, …` until every leg has stopped pending. -/
theorem runStageAux_ref (oracle : Oracle) (s : Nat) (row : List Call) :
    ∀ (fuel r : Nat) (recs : List TraceRec),
      runStageAux oracle s row fuel r (pendList oracle s r 0 row) = some recs →
      ∃ R, recs = (List.range' r R).flatMap (fun rr => rowBlocks oracle s rr 0 row) ∧
        ∀ j < row.length, pendingB oracle s j (r + R) = false := by
  intro fuel
  induction fuel with
  | zero =>
    intro r recs h
    rw [runStageAux] at h
    cases hc : (pendList oracle s r 0 row).contains false with
    | true => rw [hc] at h; simp at h
    | false =>
      rw [hc] at h
      injection h with h
      subst h
      refine ⟨0, rfl, fun j hj => ?_⟩
      have := pendList_nofalse oracle s r row 0 hc j hj
      simpa using this
  | succ f ih =>
    intro r recs h
    rw [runStageAux] at h
    cases hc : (pendList oracle s r 0 row).contains false with
    | false =>
      rw [hc] at h
      injection h with h
      subst h
      refine ⟨0, rfl, fun j hj => ?_⟩
      have := pendList_nofalse oracle s r row 0 hc j hj
      simpa using this
    | true =>
      rw [hc] at h
      simp only [eq_self_iff_true, if_true, processRound_eq oracle s r row 0,
        Option.map_eq_some'] at h
      obtain ⟨recs', h', rfl⟩ := h
      obtain ⟨R', href, hdone⟩ := ih (r + 1) recs' h'
      refine ⟨R' + 1, ?_, ?_⟩
      · rw [List.range'_succ, List.flatMap_cons, href]
      · intro j hj
        have := hdone j hj
        have harith : r + (R' + 1) = r + 1 + R' := by omega
        rwa [harith]

/-- A terminating stage produces exactly its reference trace, and every
leg has a first successful round. -/
theorem runStage_ref (oracle : Oracle) (s : Nat) (row : List Call)
    (fuel : Nat) (recs : List TraceRec)
    (h : runStage oracle s row fuel = some recs) :
    ∃ R, recs = stageRef oracle s row R ∧
      ∀ j < row.length, pendingB oracle s j R = false := by
  rw [runStage, ← pendList_zero oracle s row 0] at h
  obtain ⟨R, href, hdone⟩ := runStageAux_ref oracle s row fuel 0 recs h
  refine ⟨R, ?_, fun j hj => by simpa using hdone j hj⟩
  rw [href, stageRef, List.range_eq_range']

theorem mem_legBlock (oracle : Oracle) (s r i : Nat) (c : Call)
    (rec : TraceRec) (h : rec ∈ legBlock oracle s r i c) :
    rec.stage = s ∧ rec.leg = i ∧ rec.round = r := by
  rw [legBlock] at h
  cases ho : oracle s i r with
  | err =>
    rw [ho] at h
    simp at h
    subst h
    exact ⟨rfl, rfl, rfl⟩
  | ok resp =>
    rw [ho] at h
    rw [List.mem_append] at h
    rcases h with h | h
    · rw [List.mem_map] at h
      obtain ⟨cd, -, rfl⟩ := h
      exact ⟨rfl, rfl, rfl⟩
    · simp at h
      subst h
      exact ⟨rfl, rfl, rfl⟩

theorem mem_rowBlocks (oracle : Oracle) (s r : Nat) :
    ∀ (row : List Call) (i0 : Nat) (rec : TraceRec),
      rec ∈ rowBlocks oracle s r i0 row →
      rec.stage = s ∧ i0 ≤ rec.leg ∧ rec.round = r := by
  intro row
  induction row with
  | nil => intro i0 rec h; exact absurd h (List.not_mem_nil rec)
  | cons c cs ih =>
    intro i0 rec h
    rw [rowBlocks, List.mem_append] at h
    rcases h with h | h
    · by_cases hp : pendingB oracle s i0 r = true
      · rw [if_pos hp] at h
        obtain ⟨h1, h2, h3⟩ := mem_legBlock oracle s r i0 c rec h
        exact ⟨h1, le_of_eq h2.symm, h3⟩
      · rw [if_neg hp] at h
        exact absurd h (List.not_mem_nil rec)
    · obtain ⟨h1, h2, h3⟩ := ih (i0 + 1) rec h
      exact ⟨h1, by omega, h3⟩

theorem mem_stageRef (oracle : Oracle) (s : Nat) (row : List Call) (R : Nat)
    (rec : TraceRec) (h : rec ∈ stageRef oracle s row R) : rec.stage = s := by
  rw [stageRef, List.mem_flatMap] at h
  obtain ⟨r, -, hmem⟩ := h
  exact (mem_rowBlocks oracle s r row 0 rec hmem).1

theorem runStage_stage (oracle : Oracle) (s : Nat) (row : List Call)
    (fuel : Nat) (recs : List TraceRec)
    (h : runStage oracle s row fuel = some recs) :
    ∀ rec ∈ recs, rec.stage = s := by
  obtain ⟨R, href, -⟩ := runStage_ref oracle s row fuel recs h
  intro rec hmem
  exact mem_stageRef oracle s row R rec (href ▸ hmem)

theorem filterMap_eq_map_of {α β : Type} (f : α → Option β) (g : α → β) :
    ∀ l : List α, (∀ a ∈ l, f a = some (g a)) → l.filterMap f = l.map g := by
  intro l
  induction l with
  | nil => intro _; rfl
  | cons a as ih =>
    intro h
    rw [List.filterMap_cons, h a (List.mem_cons_self a as), List.map_cons,
      ih fun b hb => h b (List.mem_cons_of_mem a hb)]

theorem ownFor_append (s i : Nat) (l1 l2 : List TraceRec) :
    ownFor s i (l1 ++ l2) = ownFor s i l1 ++ ownFor s i l2 := by
  simp [ownFor, List.filterMap_append]

theorem ownFor_of_stage_ne (s i : Nat) (l : List TraceRec)
    (h : ∀ rec ∈ l, rec.stage ≠ s) : ownFor s i l = [] := by
  rw [ownFor, List.filterMap_eq_nil_iff]
  intro rec hmem
  rw [if_neg]
  intro hcond
  exact h rec hmem hcond.1

theorem ownFor_of_leg_ne (s i : Nat) (l : List TraceRec)
    (h : ∀ rec ∈ l, rec.leg ≠ i) : ownFor s i l = [] := by
  rw [ownFor, List.filterMap_eq_nil_iff]
  intro rec hmem
  rw [if_neg]
  intro hcond
  exact h rec hmem hcond.2.1

theorem ownFor_legBlock_self (oracle : Oracle) (s r i : Nat) (c : Call) :
    ownFor s i (legBlock oracle s r i c) = [(r, (oracle s i r).isErr)] := by
  simp only [ownFor, legBlock]
  cases ho : oracle s i r with
  | err => simp [LegResult.isErr]
  | ok resp =>
    rw [List.filterMap_append, List.filterMap_map]
    simp [LegResult.isErr, Function.comp]

theorem ownFor_legBlock_ne (oracle : Oracle) (s r i' : Nat) (c : Call)
    (i : Nat) (hne : i' ≠ i) : ownFor s i (legBlock oracle s r i' c) = [] := by
  apply ownFor_of_leg_ne
  intro rec hmem
  rw [(mem_legBlock oracle s r i' c rec hmem).2.1]
  exact hne

theorem ownFor_rowBlocks (oracle : Oracle) (s r : Nat) :
    ∀ (row : List Call) (i0 i : Nat), i0 ≤ i → i < i0 + row.length →
      ownFor s i (rowBlocks oracle s r i0 row) =
        if pendingB oracle s i r then [(r, (oracle s i r).isErr)] else [] := by
  intro row
  induction row with
  | nil => intro i0 i h0 h1; simp at h1; omega
  | cons c cs ih =>
    intro i0 i h0 h1
    rw [rowBlocks, ownFor_append]
    rcases Nat.eq_or_lt_of_le h0 with heq | hlt
    · subst heq
      have h2 : ownFor s i0 (rowBlocks oracle s r (i0 + 1) cs) = [] := by
        apply ownFor_of_leg_ne
        intro rec hmem
        have := (mem_rowBlocks oracle s r cs (i0 + 1) rec hmem).2.1
        omega
      rw [h2, List.append_nil]
      by_cases hp : pendingB oracle s i0 r = true
      · rw [if_pos hp, if_pos hp, ownFor_legBlock_self]
      · rw [if_neg hp, if_neg hp]
        rfl
    · have h2 : ownFor s i (if pendingB oracle s i0 r then
          legBlock oracle s r i0 c else []) = [] := by
        by_cases hp : pendingB oracle s i0 r = true
        · rw [if_pos hp]
          exact ownFor_legBlock_ne oracle s r i0 c i (by omega)
        · rw [if_neg hp]
          rfl
      rw [h2, List.nil_append]
      apply ih (i0 + 1) i hlt
      simp only [List.length_cons] at h1
      omega

theorem ownFor_stageRef (oracle : Oracle) (s : Nat) (row : List Call)
    (R i : Nat) (hi : i < row.length) :
    ownFor s i (stageRef oracle s row R) =
      (List.range R).filterMap fun r =>
        if pendingB oracle s i r then some (r, (oracle s i r).isErr)
        else none := by
  induction R with
  | zero => rfl
  | succ R ih =>
    rw [stageRef, List.range_succ, List.flatMap_append, ownFor_append]
    rw [stageRef] at ih
    rw [ih, List.filterMap_append]
    congr 1
    rw [List.flatMap_cons, List.flatMap_nil, List.append_nil]
    rw [ownFor_rowBlocks oracle s R row 0 i (Nat.zero_le i) (by omega)]
    rw [List.filterMap_cons, List.filterMap_nil]
    by_cases hp : pendingB oracle s i R = true
    · rw [if_pos hp, if_pos hp]
    · rw [if_neg hp, if_neg hp]

/-- Once a leg is no longer pending at round `R`, it has a first
successful round `K`, with failures at exactly the rounds before `K`;
its gated record list is those failures followed by the success. -/
theorem firstSuccess_shape (oracle : Oracle) (s i R : Nat)
    (hdone : pendingB oracle s i R = false) :
    ∃ K, K < R ∧ (∀ r < K, (oracle s i r).isErr = true) ∧
      (oracle s i K).isErr = false ∧
      ((List.range R).filterMap fun r =>
          if pendingB oracle s i r then some (r, (oracle s i r).isErr)
          else none) =
        (List.range K).map (fun r => (r, true)) ++ [(K, false)] := by
  have hex : ∃ r, (oracle s i r).isErr = false ∧ r < R := by
    by_contra hco
    push_neg at hco
    have : pendingB oracle s i R = true := by
      rw [pendingB_iff]
      intro r' hr'
      cases he : (oracle s i r').isErr
      · exact absurd hr' (not_lt.mpr (hco r' he))
      · rfl
    rw [this] at hdone
    cases hdone
  have hex' : ∃ r, (oracle s i r).isErr = false := ⟨hex.choose, hex.choose_spec.1⟩
  let K := Nat.find hex'
  have hPK : (oracle s i K).isErr = false := Nat.find_spec hex'
  have hfail : ∀ r < K, (oracle s i r).isErr = true := by
    intro r hr
    have := Nat.find_min hex' hr
    cases he : (oracle s i r).isErr
    · exact absurd he this
    · rfl
  have hKR : K < R := by
    have hle : K ≤ hex.choose := Nat.find_min' hex' hex.choose_spec.1
    have := hex.choose_spec.2
    omega
  have hle : ∀ r ≤ K, pendingB oracle s i r = true := by
    intro r hr
    rw [pendingB_iff]
    intro r' hr'
    exact hfail r' (by omega)
  have hgt : ∀ r, K < r → pendingB oracle s i r = false := by
    intro r hr
    cases hp : pendingB oracle s i r
    · rfl
    · have := (pendingB_iff oracle s i r).mp hp K hr
      rw [hPK] at this
      cases this
  refine ⟨K, hKR, hfail, hPK, ?_⟩
  have main : ∀ R', K < R' →
      ((List.range R').filterMap fun r =>
          if pendingB oracle s i r then some (r, (oracle s i r).isErr)
          else none) =
        (List.range K).map (fun r => (r, true)) ++ [(K, false)] := by
    intro R'
    induction R' with
    | zero => intro hco; omega
    | succ R' ihR =>
      intro hKR'
      rcases Nat.lt_succ_iff_lt_or_eq.mp hKR' with hcase | hcase
      · rw [List.range_succ, List.filterMap_append, ihR hcase]
        have hnone : (if pendingB oracle s i R' then
            some (R', (oracle s i R').isErr) else none) = none := by
          rw [if_neg]
          rw [hgt R' hcase]
          simp
        rw [List.filterMap_cons, hnone, List.filterMap_nil, List.append_nil]
      · subst hcase
        rw [List.range_succ, List.filterMap_append]
        congr 1
        · apply filterMap_eq_map_of
          intro r hr
          rw [List.mem_range] at hr
          rw [if_pos (hle r (le_of_lt hr)), hfail r hr]
        · rw [List.filterMap_cons, List.filterMap_nil,
            if_pos (hle K le_rfl), hPK]
  exact main R hKR

theorem runPlanAux_cons (oracle : Oracle) (fuel s0 : Nat) (row : List Call)
    (rest : List (List Call)) (recs : List TraceRec)
    (h : runPlanAux oracle fuel s0 (row :: rest) = some recs) :
    ∃ recs0 recs', runStage oracle s0 row fuel = some recs0 ∧
      runPlanAux oracle fuel (s0 + 1) rest = some recs' ∧
      recs = recs0 ++ recs' := by
  rw [runPlanAux] at h
  cases h0 : runStage oracle s0 row fuel with
  | none => rw [h0] at h; cases h
  | some recs0 =>
    rw [h0, Option.map_eq_some'] at h
    obtain ⟨recs', h', hre⟩ := h
    exact ⟨recs0, recs', rfl, h', hre.symm⟩

theorem runPlanAux_stage_lb (oracle : Oracle) (fuel : Nat) :
    ∀ (plan : List (List Call)) (s0 : Nat) (recs : List TraceRec),
      runPlanAux oracle fuel s0 plan = some recs →
      ∀ rec ∈ recs, s0 ≤ rec.stage := by
  intro plan
  induction plan with
  | nil =>
    intro s0 recs h rec hmem
    rw [runPlanAux] at h
    injection h with h
    subst h
    exact absurd hmem (List.not_mem_nil rec)
  | cons row rest ih =>
    intro s0 recs h rec hmem
    obtain ⟨recs0, recs', h0, h', rfl⟩ := runPlanAux_cons oracle fuel s0 row rest recs h
    rw [List.mem_append] at hmem
    rcases hmem with hmem | hmem
    · exact le_of_eq (runStage_stage oracle s0 row fuel recs0 h0 rec hmem).symm
    · have := ih (s0 + 1) recs' h' rec hmem
      omega

theorem pairwise_stage_le_of_const (v : Nat) :
    ∀ l : List TraceRec, (∀ rec ∈ l, rec.stage = v) →
      List.Pairwise (fun a b : TraceRec => a.stage ≤ b.stage) l := by
  intro l
  induction l with
  | nil => intro _; exact List.Pairwise.nil
  | cons a as ih =>
    intro h
    refine List.Pairwise.cons ?_ (ih fun x hx => h x (List.mem_cons_of_mem a hx))
    intro b hb
    rw [h a (List.mem_cons_self a as), h b (List.mem_cons_of_mem a hb)]

theorem runPlanAux_sorted (oracle : Oracle) (fuel : Nat) :
    ∀ (plan : List (List Call)) (s0 : Nat) (recs : List TraceRec),
      runPlanAux oracle fuel s0 plan = some recs →
      List.Pairwise (fun a b : TraceRec => a.stage ≤ b.stage) recs := by
  intro plan
  induction plan with
  | nil =>
    intro s0 recs h
    rw [runPlanAux] at h
    injection h with h
    subst h
    exact List.Pairwise.nil
  | cons row rest ih =>
    intro s0 recs h
    obtain ⟨recs0, recs', h0, h', rfl⟩ := runPlanAux_cons oracle fuel s0 row rest recs h
    rw [List.pairwise_append]
    refine ⟨pairwise_stage_le_of_const s0 recs0
        (runStage_stage oracle s0 row fuel recs0 h0),
      ih (s0 + 1) recs' h', ?_⟩
    intro a ha b hb
    have h1 := runStage_stage oracle s0 row fuel recs0 h0 a ha
    have h2 := runPlanAux_stage_lb oracle fuel rest (s0 + 1) recs' h' b hb
    omega

theorem runPlanAux_ownFor (oracle : Oracle) (fuel : Nat) :
    ∀ (plan : List (List Call)) (s0 : Nat) (recs : List TraceRec)
      (k : Nat) (row : List Call) (i : Nat),
      runPlanAux oracle fuel s0 plan = some recs →
      plan.get? k = some row → i < row.length →
      ∃ K, (∀ r < K, (oracle (s0 + k) i r).isErr = true) ∧
        (oracle (s0 + k) i K).isErr = false ∧
        ownFor (s0 + k) i recs =
          (List.range K).map (fun r => (r, true)) ++ [(K, false)] := by
  intro plan
  induction plan with
  | nil =>
    intro s0 recs k row i _ hk
    simp at hk
  | cons row0 rest ih =>
    intro s0 recs k row i h hk hi
    obtain ⟨recs0, recs', h0, h', rfl⟩ := runPlanAux_cons oracle fuel s0 row0 rest recs h
    cases k with
    | zero =>
      have hrow : row = row0 := by simpa using hk.symm
      subst hrow
      simp only [Nat.add_zero]
      obtain ⟨R, href, hdone⟩ := runStage_ref oracle s0 row fuel recs0 h0
      obtain ⟨K, _, hfail, hsucc, hshape⟩ :=
        firstSuccess_shape oracle s0 i R (hdone i hi)
      refine ⟨K, hfail, hsucc, ?_⟩
      rw [ownFor_append]
      have h2 : ownFor s0 i recs' = [] := by
        apply ownFor_of_stage_ne
        intro rec hmem
        have := runPlanAux_stage_lb oracle fuel rest (s0 + 1) recs' h' rec hmem
        omega
      rw [h2, List.append_nil, href,
        ownFor_stageRef oracle s0 row R i hi, hshape]
    | succ kk =>
      have hk' : rest.get? kk = some row := by simpa using hk
      have h1 : ownFor (s0 + (kk + 1)) i recs0 = [] := by
        apply ownFor_of_stage_ne
        intro rec hmem
        rw [runStage_stage oracle s0 row0 fuel recs0 h0 rec hmem]
        omega
      have hres := ih (s0 + 1) recs' kk row i h' hk' hi
      have harith : s0 + 1 + kk = s0 + (kk + 1) := by omega
      rw [harith] at hres
      rw [ownFor_append, h1, List.nil_append]
      exact hres

theorem runPlanAux_filter_stage (oracle : Oracle) (fuel : Nat) :
    ∀ (plan : List (List Call)) (s0 : Nat) (recs : List TraceRec)
      (k : Nat) (row : List Call),
      runPlanAux oracle fuel s0 plan = some recs →
      plan.get? k = some row →
      ∃ R, recs.filter (fun rec => rec.stage == s0 + k) =
        stageRef oracle (s0 + k) row R := by
  intro plan
  induction plan with
  | nil =>
    intro s0 recs k row _ hk
    simp at hk
  | cons row0 rest ih =>
    intro s0 recs k row h hk
    obtain ⟨recs0, recs', h0, h', rfl⟩ := runPlanAux_cons oracle fuel s0 row0 rest recs h
    rw [List.filter_append]
    cases k with
    | zero =>
      have hrow : row = row0 := by simpa using hk.symm
      subst hrow
      simp only [Nat.add_zero]
      obtain ⟨R, href, -⟩ := runStage_ref oracle s0 row fuel recs0 h0
      refine ⟨R, ?_⟩
      have hf0 : recs0.filter (fun rec => rec.stage == s0) = recs0 := by
        rw [List.filter_eq_self]
        intro rec hmem
        simpa using runStage_stage oracle s0 row fuel recs0 h0 rec hmem
      have hf' : recs'.filter (fun rec => rec.stage == s0) = [] := by
        rw [List.filter_eq_nil_iff]
        intro rec hmem
        have := runPlanAux_stage_lb oracle fuel rest (s0 + 1) recs' h' rec hmem
        simp only [beq_iff_eq]
        omega
      rw [hf0, hf', List.append_nil, href]
    | succ kk =>
      have hk' : rest.get? kk = some row := by simpa using hk
      have hf0 : recs0.filter (fun rec => rec.stage == s0 + (kk + 1)) = [] := by
        rw [List.filter_eq_nil_iff]
        intro rec hmem
        rw [runStage_stage oracle s0 row0 fuel recs0 h0 rec hmem]
        simp only [beq_iff_eq]
        omega
      obtain ⟨R, hres⟩ := ih (s0 + 1) recs' kk row h' hk'
      have harith : s0 + 1 + kk = s0 + (kk + 1) := by omega
      rw [harith] at hres
      exact ⟨R, by rw [hf0, List.nil_append, hres]⟩

/-! ## C1, C2, C3, C10 — the executor claims -/

/-- C1: stage ordering is strict.  For any terminating invocation, any
two records of the returned trace whose originating stages are `i < j`
appear in that order: a record of a smaller stage never follows a
record of a larger one.  (Stages are run to completion strictly in
order, so stage `k+1`'s records — and hence its calls — all come after
every record of stage `k`.) -/
theorem c1_stage_order (oracle : Oracle) (plan : List (List Call))
    (fuel : Nat) (recs : List TraceRec)
    (h : runPlan oracle plan fuel = some recs) :
    ∀ (p q : Nat) (hp : p < recs.length) (hq : q < recs.length),
      (recs.get ⟨p, hp⟩).stage < (recs.get ⟨q, hq⟩).stage → p < q := by
  have hpw := runPlanAux_sorted oracle fuel plan 0 recs h
  intro p q hp hq hlt
  rcases Nat.lt_or_ge p q with hpq | hge
  · exact hpq
  · rcases Nat.eq_or_lt_of_le hge with heq | hqp
    · subst heq
      exact absurd hlt (lt_irrefl _)
    · have := List.pairwise_iff_get.mp hpw ⟨q, hq⟩ ⟨p, hp⟩ hqp
      omega

/-- C2: retry closure and eager unbounded retry.  For any terminating
invocation and any leg `i` of any stage `k` of the plan, there is a
first successful round `K`: the caller's own records for that leg are
one failure record in each round `0, …, K-1` — the leg is re-attempted
on the very next round after each failure, with no backoff and no cap —
followed by a record with `was_an_error = false` in round `K`.  In
particular the trace contains at least one non-error record per leg. -/
theorem c2_retry_closure (oracle : Oracle) (plan : List (List Call))
    (fuel : Nat) (recs : List TraceRec) (k : Nat) (row : List Call) (i : Nat)
    (h : runPlan oracle plan fuel = some recs)
    (hk : plan.get? k = some row) (hi : i < row.length) :
    ∃ K, (∀ r < K, (oracle k i r).isErr = true) ∧
      (oracle k i K).isErr = false ∧
      ownFor k i recs =
        (List.range K).map (fun r => (r, true)) ++ [(K, false)] := by
  have := runPlanAux_ownFor oracle fuel plan 0 recs k row i h hk hi
  simpa using this

/-- C10: a leg is re-called only while all its previous attempts have
failed.  For any terminating invocation and any leg of any stage, the
trace holds exactly one own-record with `was_an_error = false` for that
leg, and every failure record of the leg belongs to an earlier retry
round than that success — once succeeded, the `succeeded[i]` guard
keeps the leg out of every later round. -/
theorem c10_exactly_one_success (oracle : Oracle) (plan : List (List Call))
    (fuel : Nat) (recs : List TraceRec) (k : Nat) (row : List Call) (i : Nat)
    (h : runPlan oracle plan fuel = some recs)
    (hk : plan.get? k = some row) (hi : i < row.length) :
    ((ownFor k i recs).filter fun p => !p.2).length = 1 ∧
      ∀ p ∈ ownFor k i recs, p.2 = true →
        ∃ q ∈ ownFor k i recs, q.2 = false ∧ p.1 < q.1 := by
  obtain ⟨K, -, -, hshape⟩ :=
    c2_retry_closure oracle plan fuel recs k row i h hk hi
  constructor
  · rw [hshape, List.filter_append, List.filter_map]
    simp [Function.comp]
  · intro p hp hperr
    rw [hshape, List.mem_append] at hp
    refine ⟨(K, false), by rw [hshape]; simp, rfl, ?_⟩
    rcases hp with hp | hp
    · rw [List.mem_map] at hp
      obtain ⟨r, hr, rfl⟩ := hp
      rw [List.mem_range] at hr
      exact hr
    · simp at hp
      subst hp
      cases hperr

/-- C3: trace accretion.  For any terminating invocation and any stage
`k` of the plan, the records of that stage form the reference trace
`stageRef`: round by round, and within a round in original fan-out
index order (not finish order), each still-pending leg contributes
exactly one block for its attempt — on failure the leg's single error
record, on success the callee's accumulated trace followed
*immediately* by the caller's own record of the call. -/
theorem c3_trace_accretion (oracle : Oracle) (plan : List (List Call))
    (fuel : Nat) (recs : List TraceRec) (k : Nat) (row : List Call)
    (h : runPlan oracle plan fuel = some recs)
    (hk : plan.get? k = some row) :
    ∃ R, recs.filter (fun rec => rec.stage == k) = stageRef oracle k row R := by
  have := runPlanAux_filter_stage oracle fuel plan 0 recs k row h hk
  simpa using this

/-! ### Concrete demo run used by the executor witnesses -/

/-- A demo oracle: the very first attempt (stage 0, leg 0, round 0)
fails; every other attempt succeeds with a one-record callee trace. -/
def demoOracle : Oracle := fun s i r =>
  if s = 0 ∧ i = 0 ∧ r = 0 then .err
  else .ok ⟨"m", [⟨"leaf", false⟩]⟩

/-- A demo plan: one two-leg stage, then one single-leg stage. -/
def demoPlan : List (List Call) := [[⟨"B", "m"⟩, ⟨"C", "m"⟩], [⟨"D", "m"⟩]]

/-- The trace of the demo run. -/
def demoRecs : List TraceRec := (runPlan demoOracle demoPlan 3).getD []

/-- C1 at the demo run. -/
theorem c1_stage_order_witness :
    runPlan demoOracle demoPlan 3 = some demoRecs ∧
      ∀ (p q : Nat) (hp : p < demoRecs.length) (hq : q < demoRecs.length),
        (demoRecs.get ⟨p, hp⟩).stage < (demoRecs.get ⟨q, hq⟩).stage → p < q :=
  ⟨rfl, c1_stage_order demoOracle demoPlan 3 demoRecs rfl⟩

/-- C2 at the demo run (stage 0, leg 0: one failed round, then
success). -/
theorem c2_retry_closure_witness :
    runPlan demoOracle demoPlan 3 = some demoRecs ∧
      demoPlan.get? 0 = some [⟨"B", "m"⟩, ⟨"C", "m"⟩] ∧
      0 < ([⟨"B", "m"⟩, ⟨"C", "m"⟩] : List Call).length ∧
      ∃ K, (∀ r < K, (demoOracle 0 0 r).isErr = true) ∧
        (demoOracle 0 0 K).isErr = false ∧
        ownFor 0 0 demoRecs =
          (List.range K).map (fun r => (r, true)) ++ [(K, false)] :=
  ⟨rfl, rfl, by decide,
    c2_retry_closure demoOracle demoPlan 3 demoRecs 0
      [⟨"B", "m"⟩, ⟨"C", "m"⟩] 0 rfl rfl (by decide)⟩

/-- C10 at the demo run (stage 0, leg 1: succeeds at once). -/
theorem c10_exactly_one_success_witness :
    runPlan demoOracle demoPlan 3 = some demoRecs ∧
      demoPlan.get? 0 = some [⟨"B", "m"⟩, ⟨"C", "m"⟩] ∧
      1 < ([⟨"B", "m"⟩, ⟨"C", "m"⟩] : List Call).length ∧
      (((ownFor 0 1 demoRecs).filter fun p => !p.2).length = 1 ∧
        ∀ p ∈ ownFor 0 1 demoRecs, p.2 = true →
          ∃ q ∈ ownFor 0 1 demoRecs, q.2 = false ∧ p.1 < q.1) :=
  ⟨rfl, rfl, by decide,
    c10_exactly_one_success demoOracle demoPlan 3 demoRecs 0
      [⟨"B", "m"⟩, ⟨"C", "m"⟩] 1 rfl rfl (by decide)⟩

/-- C3 at the demo run (stage 1). -/
theorem c3_trace_accretion_witness :
    runPlan demoOracle demoPlan 3 = some demoRecs ∧
      demoPlan.get? 1 = some [⟨"D", "m"⟩] ∧
      ∃ R, demoRecs.filter (fun rec => rec.stage == 1) =
        stageRef demoOracle 1 [⟨"D", "m"⟩] R :=
  ⟨rfl, rfl,
    c3_trace_accretion demoOracle demoPlan 3 demoRecs 1 [⟨"D", "m"⟩] rfl rfl⟩

/-! ## C6 — cycle detection

The correctness of `detect_cycles_dfs`: a cyclic-dependency error is
raised iff the service-level call graph has a directed cycle. -/

/-- Reachability along call-graph edges. -/
def Reaches (cfg : VConfig) : String → String → Prop :=
  Relation.ReflTransGen (stepRel cfg)

/-- `v` can reach a directed cycle. -/
def CanReachCycle (cfg : VConfig) (v : String) : Prop :=
  ∃ u, Reaches cfg v u ∧ Relation.TransGen (stepRel cfg) u u

/-- The DFS stack, newest first, is a path: each entry is a call-graph
successor of the entry below it. -/
def StackChain (cfg : VConfig) : List String → Prop :=
  List.Chain' fun b a => stepRel cfg a b

theorem lookup_mem {β : Type} :
    ∀ (l : List (String × β)) (a : String) (b : β),
      l.lookup a = some b → (a, b) ∈ l := by
  intro l
  induction l with
  | nil => intro a b h; cases h
  | cons p rest ih =>
    intro a b h
    rw [List.lookup] at h
    by_cases heq : a = p.1
    · rw [heq, beq_self_eq_true] at h
      injection h with h
      subst h
      rw [heq, Prod.mk.eta]
      exact List.mem_cons_self p rest
    · rw [beq_eq_false_iff_ne.mpr heq] at h
      exact List.mem_cons_of_mem p (ih a b h)

theorem mem_keys_lookup {β : Type} :
    ∀ (l : List (String × β)) (a : String),
      a ∈ l.map Prod.fst → ∃ b, l.lookup a = some b := by
  intro l
  induction l with
  | nil => intro a h; cases h
  | cons p rest ih =>
    intro a h
    rw [List.lookup]
    by_cases heq : a = p.1
    · rw [heq, beq_self_eq_true]
      exact ⟨p.2, rfl⟩
    · rw [beq_eq_false_iff_ne.mpr heq]
      rw [List.map_cons, List.mem_cons] at h
      exact ih a (h.resolve_left heq)

theorem stepRel_src_mem (cfg : VConfig) (u v : String)
    (h : stepRel cfg u v) : u ∈ cfg.keys := by
  rw [stepRel, adjOf] at h
  cases hlk : cfg.services.lookup u with
  | none => rw [hlk] at h; exact absurd h (List.not_mem_nil v)
  | some svc =>
    have := lookup_mem cfg.services u svc hlk
    rw [VConfig.keys]
    exact List.mem_map_of_mem Prod.fst this

theorem forEachE_ok {α : Type} (f : α → Except VErr Unit) :
    ∀ l : List α, forEachE f l = .ok () → ∀ a ∈ l, f a = .ok () := by
  intro l
  induction l with
  | nil => intro _ a ha; exact absurd ha (List.not_mem_nil a)
  | cons x rest ih =>
    intro h a ha
    rw [forEachE] at h
    cases hfx : f x with
    | error e => rw [hfx] at h; cases h
    | ok u =>
      rw [hfx] at h
      rcases List.mem_cons.mp ha with rfl | ha'
      · cases u
        exact hfx
      · exact ih h a ha'

/-- Everything the call graph points at is a declared service once the
reference-integrity pass succeeded. -/
def RefClosed (cfg : VConfig) : Prop :=
  ∀ u v, stepRel cfg u v → v ∈ cfg.keys

theorem refClosed_of_checkAllCalls (cfg : VConfig)
    (href : checkAllCalls cfg = .ok ()) : RefClosed cfg := by
  intro u v hstep
  rw [stepRel, adjOf] at hstep
  cases hlk : cfg.services.lookup u with
  | none => rw [hlk] at hstep; exact absurd hstep (List.not_mem_nil v)
  | some svc =>
    rw [hlk] at hstep
    have hmemsvc : (u, svc) ∈ cfg.services := lookup_mem cfg.services u svc hlk
    simp only [adjOfSvc] at hstep
    rw [List.mem_flatMap] at hstep
    obtain ⟨mp, hmp, hstep⟩ := hstep
    rw [List.mem_flatMap] at hstep
    obtain ⟨row, hrow, hstep⟩ := hstep
    rw [List.mem_map] at hstep
    obtain ⟨call, hcall, rfl⟩ := hstep
    have h1 := forEachE_ok _ cfg.services href (u, svc) hmemsvc
    have h2 := forEachE_ok _ svc.methods h1 mp hmp
    have h3 := forEachE_ok _ mp.2.calls h2 row hrow
    have h4 := forEachE_ok _ row h3 call hcall
    rw [checkCall] at h4
    by_cases hlen : (splitDot call).length ≠ 2
    · rw [if_pos hlen] at h4
      cases h4
    · rw [if_neg hlen] at h4
      by_cases hcont : ¬(cfg.keys.contains ((splitDot call).headI) = true)
      · rw [if_pos hcont] at h4
        cases h4
      · push_neg at hcont
        rw [calledOf]
        simpa using hcont

/-- Any member of a chained stack reaches its head. -/
theorem chain_reach_head (cfg : VConfig) :
    ∀ (stack : List String) (self t : String),
      StackChain cfg (self :: stack) → t ∈ self :: stack →
      Reaches cfg t self := by
  intro stack
  induction stack with
  | nil =>
    intro self t _ hmem
    rcases List.mem_cons.mp hmem with rfl | h
    · exact Relation.ReflTransGen.refl
    · exact absurd h (List.not_mem_nil t)
  | cons b rest ih =>
    intro self t hchain hmem
    rw [StackChain, List.chain'_cons] at hchain
    rcases List.mem_cons.mp hmem with rfl | h
    · exact Relation.ReflTransGen.refl
    · exact Relation.ReflTransGen.tail (ih b t hchain.2 h) hchain.1

/-- DFS target scan, soundness: a cyclic-dependency error implies a
directed cycle, given that the node statement holds at this fuel. -/
theorem dfs_sound_targets (cfg : VConfig) (fuel : Nat)
    (hnode : ∀ name visited stack a b,
      StackChain cfg (name :: stack) →
      dfsNode cfg fuel name visited stack =
        some (.error (.circularDependency a b)) →
      HasCycle cfg) :
    ∀ (ts : List String) (self : String) (visited stack : List String)
      (a b : String),
      StackChain cfg stack → stack.head? = some self →
      (∀ t ∈ ts, stepRel cfg self t) →
      dfsTargets cfg fuel self ts visited stack =
        some (.error (.circularDependency a b)) →
      HasCycle cfg := by
  intro ts
  induction ts with
  | nil =>
    intro self visited stack a b _ _ _ h
    rw [dfsTargets] at h
    simp at h
  | cons t ts ih =>
    intro self visited stack a b hchain hhead hsteps h
    rw [dfsTargets] at h
    by_cases hmem : t ∈ stack
    · obtain ⟨rest, rfl⟩ : ∃ rest, stack = self :: rest := by
        cases stack with
        | nil => cases hhead
        | cons x rest =>
          injection hhead with hx
          exact ⟨rest, by rw [hx]⟩
      exact ⟨t, Relation.TransGen.tail'
        (chain_reach_head cfg rest self t hchain hmem)
        (hsteps t (List.mem_cons_self t ts))⟩
    · rw [if_neg hmem] at h
      by_cases hvis : t ∈ visited
      · rw [if_pos hvis] at h
        exact ih self visited stack a b hchain hhead
          (fun x hx => hsteps x (List.mem_cons_of_mem t hx)) h
      · rw [if_neg hvis] at h
        cases hrec : dfsNode cfg fuel t visited stack with
        | none => rw [hrec] at h; cases h
        | some res =>
          rw [hrec] at h
          cases res with
          | error e =>
            injection h with h
            injection h with h
            subst h
            obtain ⟨rest, rfl⟩ : ∃ rest, stack = self :: rest := by
              cases stack with
              | nil => cases hhead
              | cons x rest =>
                injection hhead with hx
                exact ⟨rest, by rw [hx]⟩
            refine hnode t visited (self :: rest) a b ?_ hrec
            rw [StackChain, List.chain'_cons]
            exact ⟨hsteps t (List.mem_cons_self t ts), hchain⟩
          | ok visited' =>
            exact ih self visited' stack a b hchain hhead
              (fun x hx => hsteps x (List.mem_cons_of_mem t hx)) h

/-- DFS node, soundness: a cyclic-dependency error implies a directed
cycle. -/
theorem dfs_sound_node (cfg : VConfig) :
    ∀ (fuel : Nat) (name : String) (visited stack : List String)
      (a b : String),
      StackChain cfg (name :: stack) →
      dfsNode cfg fuel name visited stack =
        some (.error (.circularDependency a b)) →
      HasCycle cfg := by
  intro fuel
  induction fuel with
  | zero =>
    intro name visited stack a b _ h
    rw [dfsNode] at h
    cases h
  | succ f ih =>
    intro name visited stack a b hchain h
    rw [dfsNode] at h
    cases hlk : cfg.services.lookup name with
    | none =>
      rw [hlk] at h
      simp at h
    | some svc =>
      rw [hlk] at h
      refine dfs_sound_targets cfg f ih (adjOfSvc svc) name
        (name :: visited) (name :: stack) a b hchain rfl ?_ h
      intro t ht
      rw [stepRel, adjOf, hlk]
      exact ht

/-- The cycle-detection driver is sound. -/
theorem detectAux_sound (cfg : VConfig) (fuel : Nat) (a b : String) :
    ∀ (ks visited : List String),
      detectCircularAux cfg fuel ks visited =
        some (.error (.circularDependency a b)) →
      HasCycle cfg := by
  intro ks
  induction ks with
  | nil =>
    intro visited h
    rw [detectCircularAux] at h
    simp at h
  | cons k ks ih =>
    intro visited h
    rw [detectCircularAux] at h
    by_cases hvis : k ∈ visited
    · rw [if_pos hvis] at h
      exact ih visited h
    · rw [if_neg hvis] at h
      cases hrec : dfsNode cfg fuel k visited [] with
      | none => rw [hrec] at h; cases h
      | some res =>
        rw [hrec] at h
        cases res with
        | error e =>
          injection h with h
          injection h with h
          subst h
          exact dfs_sound_node cfg fuel k visited [] a b
            (by rw [StackChain]; exact List.chain'_singleton k) hrec
        | ok visited' => exact ih visited' h

/-- If no successor of `v` can reach a cycle, neither can `v`. -/
theorem safe_of_targets (cfg : VConfig) (v : String)
    (h : ∀ t, stepRel cfg v t → ¬CanReachCycle cfg t) :
    ¬CanReachCycle cfg v := by
  rintro ⟨u, hvu, hcycle⟩
  rcases Relation.ReflTransGen.cases_head hvu with heq | ⟨t, hstep, htu⟩
  · subst heq
    obtain ⟨t, hstep, htv⟩ := Relation.TransGen.head'_iff.mp hcycle
    exact h t hstep ⟨v, htv, hcycle⟩
  · exact h t hstep ⟨u, htu, hcycle⟩

/-- The DFS invariant: every black node (visited but not on the current
stack) cannot reach a cycle. -/
def Inv (cfg : VConfig) (visited stack : List String) : Prop :=
  ∀ b ∈ visited, b ∉ stack → ¬CanReachCycle cfg b

/-- DFS target scan, completeness: a clean scan preserves the black
invariant, only grows `visited`, and leaves every scanned target unable
to reach a cycle. -/
theorem dfs_complete_targets (cfg : VConfig) (fuel : Nat)
    (hnode : ∀ (name : String) (visited stack visited' : List String),
      dfsNode cfg fuel name visited stack = some (.ok visited') →
      Inv cfg visited stack →
      Inv cfg visited' stack ∧ (∀ x ∈ visited, x ∈ visited') ∧
        name ∈ visited') :
    ∀ (ts : List String) (self : String) (visited stack visited' : List String),
      dfsTargets cfg fuel self ts visited stack = some (.ok visited') →
      Inv cfg visited stack →
      Inv cfg visited' stack ∧ (∀ x ∈ visited, x ∈ visited') ∧
        ∀ t ∈ ts, ¬CanReachCycle cfg t := by
  intro ts
  induction ts with
  | nil =>
    intro self visited stack visited' h hInv
    rw [dfsTargets] at h
    injection h with h
    injection h with h
    subst h
    exact ⟨hInv, fun x hx => hx, fun t ht => absurd ht (List.not_mem_nil t)⟩
  | cons t ts ih =>
    intro self visited stack visited' h hInv
    rw [dfsTargets] at h
    by_cases hmem : t ∈ stack
    · rw [if_pos hmem] at h
      cases h
    · rw [if_neg hmem] at h
      by_cases hvis : t ∈ visited
      · rw [if_pos hvis] at h
        obtain ⟨hInv', hmono, hsafe⟩ := ih self visited stack visited' h hInv
        refine ⟨hInv', hmono, fun x hx => ?_⟩
        rcases List.mem_cons.mp hx with rfl | hx'
        · exact hInv x hvis hmem
        · exact hsafe x hx'
      · rw [if_neg hvis] at h
        cases hrec : dfsNode cfg fuel t visited stack with
        | none => rw [hrec] at h; cases h
        | some res =>
          rw [hrec] at h
          cases res with
          | error e => cases h
          | ok v2 =>
            obtain ⟨hInv2, hmono2, htv2⟩ := hnode t visited stack v2 hrec hInv
            obtain ⟨hInv', hmono, hsafe⟩ := ih self v2 stack visited' h hInv2
            refine ⟨hInv', fun x hx => hmono x (hmono2 x hx), fun x hx => ?_⟩
            rcases List.mem_cons.mp hx with rfl | hx'
            · exact hInv2 x htv2 hmem
            · exact hsafe x hx'

/-- DFS node, completeness: a clean visit preserves the black invariant
with the caller's stack, grows `visited`, and blackens `name`. -/
theorem dfs_complete_node (cfg : VConfig) :
    ∀ (fuel : Nat) (name : String) (visited stack visited' : List String),
      dfsNode cfg fuel name visited stack = some (.ok visited') →
      Inv cfg visited stack →
      Inv cfg visited' stack ∧ (∀ x ∈ visited, x ∈ visited') ∧
        name ∈ visited' := by
  intro fuel
  induction fuel with
  | zero =>
    intro name visited stack visited' h
    rw [dfsNode] at h
    cases h
  | succ f ih =>
    intro name visited stack visited' h hInv
    rw [dfsNode] at h
    cases hlk : cfg.services.lookup name with
    | none =>
      rw [hlk] at h
      cases h
    | some svc =>
      rw [hlk] at h
      have hInv1 : Inv cfg (name :: visited) (name :: stack) := by
        intro b hb hbs
        have hbne : b ≠ name := fun hh => hbs (hh ▸ List.mem_cons_self name stack)
        rcases List.mem_cons.mp hb with rfl | hb'
        · exact absurd rfl hbne
        · exact hInv b hb' fun hh => hbs (List.mem_cons_of_mem name hh)
      obtain ⟨hInvOut, hmono, hsafeT⟩ :=
        dfs_complete_targets cfg f ih (adjOfSvc svc) name
          (name :: visited) (name :: stack) visited' h hInv1
      have hnamesafe : ¬CanReachCycle cfg name := by
        apply safe_of_targets
        intro t hstep
        rw [stepRel, adjOf, hlk] at hstep
        exact hsafeT t hstep
      have hnamemem : name ∈ visited' :=
        hmono name (List.mem_cons_self name visited)
      refine ⟨?_, fun x hx => hmono x (List.mem_cons_of_mem name hx),
        hnamemem⟩
      intro b hb hbs
      by_cases hbn : b = name
      · subst hbn
        exact hnamesafe
      · exact hInvOut b hb fun hh => by
          rcases List.mem_cons.mp hh with h1 | h1
          · exact hbn h1
          · exact hbs h1

/-- The cycle-detection driver, completeness: a clean pass leaves every
root unable to reach a cycle. -/
theorem detectAux_complete (cfg : VConfig) (fuel : Nat) :
    ∀ (ks visited : List String),
      detectCircularAux cfg fuel ks visited = some (.ok ()) →
      Inv cfg visited [] →
      ∀ k ∈ ks, ¬CanReachCycle cfg k := by
  intro ks
  induction ks with
  | nil => intro visited _ _ k hk; exact absurd hk (List.not_mem_nil k)
  | cons k ks ih =>
    intro visited h hInv x hx
    rw [detectCircularAux] at h
    by_cases hvis : k ∈ visited
    · rw [if_pos hvis] at h
      rcases List.mem_cons.mp hx with rfl | hx'
      · exact hInv x hvis (List.not_mem_nil x)
      · exact ih visited h hInv x hx'
    · rw [if_neg hvis] at h
      cases hrec : dfsNode cfg fuel k visited [] with
      | none => rw [hrec] at h; cases h
      | some res =>
        rw [hrec] at h
        cases res with
        | error e => cases h
        | ok v' =>
          obtain ⟨hInv', hmono, hkmem⟩ :=
            dfs_complete_node cfg fuel k visited [] v' hrec hInv
          rcases List.mem_cons.mp hx with rfl | hx'
          · exact hInv' x hkmem (List.not_mem_nil x)
          · exact ih v' h hInv' x hx'

/-- A clean `detect_circular_dependencies` pass means the call graph is
acyclic. -/
theorem detect_complete (cfg : VConfig) (fuel : Nat)
    (h : detect_circular_dependencies cfg fuel = some (.ok ())) :
    ¬HasCycle cfg := by
  rintro ⟨u, hcyc⟩
  have hsafe := detectAux_complete cfg fuel cfg.keys [] h
    (fun b hb _ => absurd hb (List.not_mem_nil b))
  obtain ⟨t, hstep, -⟩ := Relation.TransGen.head'_iff.mp hcyc
  exact hsafe u (stepRel_src_mem cfg u t hstep)
    ⟨u, Relation.ReflTransGen.refl, hcyc⟩

theorem length_filter_le_of_imp {α : Type} (p q : α → Bool) :
    ∀ l : List α, (∀ a ∈ l, q a = true → p a = true) →
      (l.filter q).length ≤ (l.filter p).length := by
  intro l
  induction l with
  | nil => intro _; exact le_rfl
  | cons x rest ih =>
    intro h
    have hrest := ih fun a ha => h a (List.mem_cons_of_mem x ha)
    rw [List.filter_cons, List.filter_cons]
    cases hq : q x with
    | false =>
      cases hp : p x with
      | false => simpa using hrest
      | true => simp only [if_pos rfl, List.length_cons]; simpa using Nat.le_succ_of_le hrest
    | true =>
      have hp : p x = true := h x (List.mem_cons_self x rest) hq
      rw [hp]
      simpa using hrest

theorem length_filter_lt_of_mem {α : Type} (p q : α → Bool) (t : α) :
    ∀ l : List α, t ∈ l → p t = true → q t = false →
      (∀ a ∈ l, q a = true → p a = true) →
      (l.filter q).length < (l.filter p).length := by
  intro l
  induction l with
  | nil => intro ht; exact absurd ht (List.not_mem_nil t)
  | cons x rest ih =>
    intro ht hpt hqt h
    have hmono := length_filter_le_of_imp p q rest
      fun a ha => h a (List.mem_cons_of_mem x ha)
    rcases List.mem_cons.mp ht with rfl | ht'
    · simp only [List.filter_cons, hqt, hpt, Bool.false_eq_true, if_false,
        if_true, List.length_cons]
      omega
    · have hstrict := ih ht' hpt hqt fun a ha => h a (List.mem_cons_of_mem x ha)
      cases hq : q x with
      | false =>
        cases hp : p x with
        | false =>
          simp only [List.filter_cons, hq, hp, Bool.false_eq_true, if_false]
          omega
        | true =>
          simp only [List.filter_cons, hq, hp, Bool.false_eq_true, if_false,
            if_true, List.length_cons]
          omega
      | true =>
        have hp : p x = true := h x (List.mem_cons_self x rest) hq
        simp only [List.filter_cons, hq, hp, if_true, List.length_cons]
        omega

/-- The number of not-yet-visited services. -/
def unvis (cfg : VConfig) (visited : List String) : Nat :=
  (cfg.keys.filter fun k => decide (k ∉ visited)).length

theorem unvis_mono (cfg : VConfig) (visited v2 : List String)
    (hsub : ∀ x ∈ visited, x ∈ v2) : unvis cfg v2 ≤ unvis cfg visited := by
  apply length_filter_le_of_imp
  intro a _ hq
  rw [decide_eq_true_eq] at hq
  rw [decide_eq_true_eq]
  intro hmem
  exact hq (hsub a hmem)

theorem unvis_strict (cfg : VConfig) (visited v2 : List String) (t : String)
    (hsub : ∀ x ∈ visited, x ∈ v2) (htk : t ∈ cfg.keys)
    (htnv : t ∉ visited) (htv2 : t ∈ v2) :
    unvis cfg v2 < unvis cfg visited := by
  apply length_filter_lt_of_mem _ _ t _ htk
  · rw [decide_eq_true_eq]
    exact htnv
  · rw [decide_eq_false_iff_not]
    intro hh
    exact hh htv2
  · intro a _ hq
    rw [decide_eq_true_eq] at hq
    rw [decide_eq_true_eq]
    intro hmem
    exact hq (hsub a hmem)

/-- DFS target scan, totality: with reference-closed edges, keyed
targets and enough fuel, the scan yields either a clean pass (growing
`visited`) or a cyclic-dependency error — never fuel exhaustion, never
the missing-service panic. -/
theorem dfs_total_targets (cfg : VConfig) (fuel : Nat)
    (hnode : ∀ (name : String) (visited stack : List String),
      name ∈ cfg.keys → name ∉ visited → unvis cfg visited < fuel →
      (∃ visited', dfsNode cfg fuel name visited stack = some (.ok visited') ∧
          (∀ x ∈ visited, x ∈ visited') ∧ name ∈ visited') ∨
        ∃ a b, dfsNode cfg fuel name visited stack =
          some (.error (.circularDependency a b))) :
    ∀ (ts : List String) (self : String) (visited stack : List String),
      (∀ t ∈ ts, t ∈ cfg.keys) → unvis cfg visited < fuel →
      (∃ visited', dfsTargets cfg fuel self ts visited stack =
          some (.ok visited') ∧ ∀ x ∈ visited, x ∈ visited') ∨
        ∃ a b, dfsTargets cfg fuel self ts visited stack =
          some (.error (.circularDependency a b)) := by
  intro ts
  induction ts with
  | nil =>
    intro self visited stack _ _
    exact Or.inl ⟨visited, by rw [dfsTargets], fun x hx => hx⟩
  | cons t ts ih =>
    intro self visited stack hts hfuel
    by_cases hmem : t ∈ stack
    · exact Or.inr ⟨self, t, by rw [dfsTargets, if_pos hmem]⟩
    · by_cases hvis : t ∈ visited
      · rcases ih self visited stack
          (fun x hx => hts x (List.mem_cons_of_mem t hx)) hfuel with
          ⟨v', heq, hmono⟩ | ⟨a, b, herr⟩
        · exact Or.inl ⟨v',
            by rw [dfsTargets, if_neg hmem, if_pos hvis]; exact heq, hmono⟩
        · exact Or.inr ⟨a, b,
            by rw [dfsTargets, if_neg hmem, if_pos hvis]; exact herr⟩
      · rcases hnode t visited stack (hts t (List.mem_cons_self t ts))
          hvis hfuel with ⟨v2, heq2, hmono2, htv2⟩ | ⟨a, b, herr⟩
        · have hfuel2 : unvis cfg v2 < fuel :=
            lt_of_le_of_lt (unvis_mono cfg visited v2 hmono2) hfuel
          rcases ih self v2 stack
            (fun x hx => hts x (List.mem_cons_of_mem t hx)) hfuel2 with
            ⟨v', heq', hmono'⟩ | ⟨a, b, herr'⟩
          · exact Or.inl ⟨v',
              by rw [dfsTargets, if_neg hmem, if_neg hvis, heq2]; exact heq',
              fun x hx => hmono' x (hmono2 x hx)⟩
          · exact Or.inr ⟨a, b,
              by rw [dfsTargets, if_neg hmem, if_neg hvis, heq2]; exact herr'⟩
        · exact Or.inr ⟨a, b,
            by rw [dfsTargets, if_neg hmem, if_neg hvis, herr]⟩

/-- DFS node, totality. -/
theorem dfs_total_node (cfg : VConfig) (href : RefClosed cfg) :
    ∀ (fuel : Nat) (name : String) (visited stack : List String),
      name ∈ cfg.keys → name ∉ visited → unvis cfg visited < fuel →
      (∃ visited', dfsNode cfg fuel name visited stack = some (.ok visited') ∧
          (∀ x ∈ visited, x ∈ visited') ∧ name ∈ visited') ∨
        ∃ a b, dfsNode cfg fuel name visited stack =
          some (.error (.circularDependency a b)) := by
  intro fuel
  induction fuel with
  | zero =>
    intro name visited stack _ _ hfuel
    omega
  | succ f ih =>
    intro name visited stack hk hnv hfuel
    obtain ⟨svc, hlk⟩ := mem_keys_lookup cfg.services name hk
    have hfuel1 : unvis cfg (name :: visited) < f := by
      have := unvis_strict cfg visited (name :: visited) name
        (fun x hx => List.mem_cons_of_mem name hx) hk hnv
        (List.mem_cons_self name visited)
      omega
    have htsk : ∀ t ∈ adjOfSvc svc, t ∈ cfg.keys := by
      intro t ht
      exact href name t (by rw [stepRel, adjOf, hlk]; exact ht)
    rcases dfs_total_targets cfg f ih (adjOfSvc svc) name
      (name :: visited) (name :: stack) htsk hfuel1 with
      ⟨v', heq, hmono⟩ | ⟨a, b, herr⟩
    · exact Or.inl ⟨v', by rw [dfsNode, hlk]; exact heq,
        fun x hx => hmono x (List.mem_cons_of_mem name hx),
        hmono name (List.mem_cons_self name visited)⟩
    · exact Or.inr ⟨a, b, by rw [dfsNode, hlk]; exact herr⟩

/-- Cycle-detection driver, totality. -/
theorem detect_total_aux (cfg : VConfig) (href : RefClosed cfg) (fuel : Nat) :
    ∀ (ks visited : List String),
      (∀ k ∈ ks, k ∈ cfg.keys) → unvis cfg visited < fuel →
      detectCircularAux cfg fuel ks visited = some (.ok ()) ∨
        ∃ a b, detectCircularAux cfg fuel ks visited =
          some (.error (.circularDependency a b)) := by
  intro ks
  induction ks with
  | nil =>
    intro visited _ _
    exact Or.inl (by rw [detectCircularAux])
  | cons k ks ih =>
    intro visited hks hfuel
    by_cases hvis : k ∈ visited
    · rcases ih visited (fun x hx => hks x (List.mem_cons_of_mem k hx))
        hfuel with hok | ⟨a, b, herr⟩
      · exact Or.inl (by rw [detectCircularAux, if_pos hvis]; exact hok)
      · exact Or.inr ⟨a, b,
          by rw [detectCircularAux, if_pos hvis]; exact herr⟩
    · rcases dfs_total_node cfg href fuel k visited []
        (hks k (List.mem_cons_self k ks)) hvis hfuel with
        ⟨v', heq, hmono, -⟩ | ⟨a, b, herr⟩
      · have hfuel' : unvis cfg v' < fuel :=
          lt_of_le_of_lt (unvis_mono cfg visited v' hmono) hfuel
        rcases ih v' (fun x hx => hks x (List.mem_cons_of_mem k hx))
          hfuel' with hok | ⟨a, b, herr'⟩
        · exact Or.inl
            (by rw [detectCircularAux, if_neg hvis, heq]; exact hok)
        · exact Or.inr ⟨a, b,
            by rw [detectCircularAux, if_neg hvis, heq]; exact herr'⟩
      · exact Or.inr ⟨a, b,
          by rw [detectCircularAux, if_neg hvis, herr]⟩

/-- C6: the validator rejects exactly the cyclic topologies.  For every
topology that passes the reference-integrity checks and any fuel above
the number of services: if the service-level call graph — the union of
all (service → called-service) edges over all methods and stages — has
a directed cycle, `validate_service_dependencies` rejects it with a
cyclic-dependency error (before any deployment, which only follows
successful validation); and if the graph is acyclic, the cycle check
does not reject it. -/
theorem c6_cycle_detection (cfg : VConfig) (fuel : Nat)
    (href : checkAllCalls cfg = Except.ok ())
    (hfuel : cfg.services.length < fuel) :
    (HasCycle cfg → ∃ a b, validate_service_dependencies cfg fuel =
        some (Except.error (VErr.circularDependency a b))) ∧
    (¬HasCycle cfg → validate_service_dependencies cfg fuel =
        some (Except.ok ())) := by
  have hrc : RefClosed cfg := refClosed_of_checkAllCalls cfg href
  have hunvis : unvis cfg [] < fuel := by
    have h1 : unvis cfg [] ≤ cfg.keys.length := List.length_filter_le _ _
    have h2 : cfg.keys.length = cfg.services.length := List.length_map _ _
    omega
  have hval : validate_service_dependencies cfg fuel =
      detect_circular_dependencies cfg fuel := by
    rw [validate_service_dependencies, href]
  have hdich := detect_total_aux cfg hrc fuel cfg.keys []
    (fun k hk => hk) hunvis
  constructor
  · intro hcyc
    rcases hdich with hok | ⟨a, b, herr⟩
    · exact absurd hcyc (detect_complete cfg fuel hok)
    · exact ⟨a, b, by rw [hval]; exact herr⟩
  · intro hnc
    rcases hdich with hok | ⟨a, b, herr⟩
    · rw [hval]
      exact hok
    · exact absurd (detectAux_sound cfg fuel a b cfg.keys [] herr) hnc

/-- A two-service cyclic topology: `A.m` calls `B.m` and `B.m` calls
`A.m`. -/
def cycCfg : VConfig :=
  ⟨[("A", ⟨[("m", ⟨[["B.m"]]⟩)]⟩), ("B", ⟨[("m", ⟨[["A.m"]]⟩)]⟩)]⟩

/-- C6 at a concrete cyclic topology. -/
theorem c6_cycle_detection_witness :
    checkAllCalls cycCfg = Except.ok () ∧ cycCfg.services.length < 3 ∧
      ∃ a b, validate_service_dependencies cycCfg 3 =
        some (Except.error (VErr.circularDependency a b)) :=
  ⟨rfl, by decide,
    (c6_cycle_detection cycCfg 3 rfl (by decide)).1
      ⟨"A", Relation.TransGen.head
        (show stepRel cycCfg "A" "B" by unfold stepRel; decide)
        (Relation.TransGen.single
          (show stepRel cycCfg "B" "A" by unfold stepRel; decide))⟩⟩

end SimSpec
